import Mathlib

/-!
Verification of the sdb debugger core against its specification.

This file shallowly embeds the parts of the sdb source that the checked
claims are about: the DIE-backed type model (`src/src/type.cpp`), the ELF
load-bias bookkeeping (`src/include/libsdb/elf.hpp`, `src/src/target.cpp`),
and the DWARF engine (`src/unnamed/part_009`): compile-unit header parsing,
DIE sibling traversal, `die::contains_address`, the function index scan,
and the line-number-program state machine with `get_entry_by_address`.

Machine integers are modelled as `Nat` with explicit reduction modulo
`2 ^ 64` wherever the C++ code performs wrapping `std::uint64_t` or
`std::size_t` arithmetic.  Fatal errors (`sdb::error::send`) are modelled
by `Option`/`Except` results.
-/

namespace Sdb

/-! ## DWARF constants (values from the DWARF v4 standard, as used by
`libsdb/detail/dwarf.h`) -/

def DW_TAG_array_type : Nat := 0x01

def DW_TAG_enumeration_type : Nat := 0x04

def DW_TAG_pointer_type : Nat := 0x0f

def DW_TAG_typedef : Nat := 0x16

def DW_TAG_inlined_subroutine : Nat := 0x1d

def DW_TAG_ptr_to_member_type : Nat := 0x1f

def DW_TAG_subrange_type : Nat := 0x21

def DW_TAG_base_type : Nat := 0x24

def DW_TAG_const_type : Nat := 0x26

def DW_TAG_subprogram : Nat := 0x2e

def DW_TAG_volatile_type : Nat := 0x35

def DW_ATE_signed_char : Nat := 0x06

def DW_ATE_unsigned_char : Nat := 0x08

/-! ## Wrapping 64-bit arithmetic -/

/-- Modulus of `std::uint64_t` / x86-64 `std::size_t` arithmetic. -/
def U64MOD : Nat := 2 ^ 64

/-- Wrapping unsigned 64-bit addition (`a + b` on `std::uint64_t`). -/
def u64add (a b : Nat) : Nat := (a + b) % U64MOD

/-- Wrapping unsigned 64-bit multiplication (`a * b` on `std::size_t`). -/
def u64mul (a b : Nat) : Nat := (a * b) % U64MOD

/-- Wrapping unsigned 64-bit subtraction (`a - b` on `std::uint64_t`),
assuming `a` and `b` already lie below `2 ^ 64`. -/
def u64sub (a b : Nat) : Nat := (a + (U64MOD - b % U64MOD)) % U64MOD

/-- Two's-complement addition of a signed quantity `b` to an unsigned
64-bit register `a` (C++ `u64 += int64`). -/
def u64addInt (a : Nat) (b : Int) : Nat := (((a : Int) + b) % (U64MOD : Int)).toNat

/-! ## The DIE-backed type model (`sdb::type`, `src/src/type.cpp`)

A type DIE is modelled as a tree: the attributes that `compute_byte_size`,
`strip` and `is_char_type` consult (`DW_AT_encoding`, `DW_AT_byte_size`,
`DW_AT_upper_bound`, `DW_AT_type`) plus the DIE's children.  A missing
attribute whose lookup the C++ code performs anyway raises a fatal error
(`die::operator[]` calls `error::send`), modelled by `none`. -/

inductive Die where
  | mk (tag : Nat) (encoding : Option Nat) (byteSizeAttr : Option Nat)
       (upperBound : Option Nat) (typeRef : Option Die) (children : List Die)
deriving Repr

def Die.tag : Die → Nat
  | .mk t _ _ _ _ _ => t

def Die.encoding : Die → Option Nat
  | .mk _ e _ _ _ _ => e

def Die.byteSizeAttr : Die → Option Nat
  | .mk _ _ b _ _ _ => b

def Die.upperBound : Die → Option Nat
  | .mk _ _ _ u _ _ => u

def Die.typeRef : Die → Option Die
  | .mk _ _ _ _ r _ => r

def Die.children : Die → List Die
  | .mk _ _ _ _ _ c => c

/-- Shallow embedding of `sdb::type::strip<Tags...>`: follow `DW_AT_type`
while the wrapped tag is in the given set.  A missing `DW_AT_type` on a
DIE whose tag is in the set is a fatal error (`none`). -/
def stripTags (tags : List Nat) : Die → Option Die
  | .mk t e b u r c =>
    if t ∈ tags then
      match r with
      | some tr => stripTags tags tr
      | none => none
    else some (.mk t e b u r c)

/-- Shallow embedding of `sdb::type::strip_cv_typedef`. -/
def stripCvTypedef (d : Die) : Option Die :=
  stripTags [DW_TAG_const_type, DW_TAG_volatile_type, DW_TAG_typedef] d

/-- Fold of `sdb::type::compute_byte_size`'s `DW_TAG_array_type` loop:
for every `DW_TAG_subrange_type` child multiply by `upper_bound + 1`
(wrapping `std::size_t` arithmetic); a subrange child without
`DW_AT_upper_bound` is a fatal error. -/
def arrayByteSizeFold (acc : Nat) : List Die → Option Nat
  | [] => some acc
  | ch :: rest =>
    if ch.tag = DW_TAG_subrange_type then
      match ch.upperBound with
      | some ub => arrayByteSizeFold (u64mul acc (u64add ub 1)) rest
      | none => none
    else arrayByteSizeFold acc rest

/-- Shallow embedding of `sdb::type::compute_byte_size`
(`src/src/type.cpp` lines 10-39). -/
def computeByteSize : Die → Option Nat
  | .mk t _ b _ r c =>
    if t = DW_TAG_pointer_type then some 8
    else if t = DW_TAG_ptr_to_member_type then
      match r with
      | some m => some (if m.tag = DW_TAG_subrange_type then 16 else 8)
      | none => none
    else if t = DW_TAG_array_type then
      match r with
      | some el =>
        match computeByteSize el with
        | some v => arrayByteSizeFold v c
        | none => none
      | none => none
    else if b.isSome then b
    else
      match r with
      | some tr => computeByteSize tr
      | none => some 0

/-- Shallow embedding of `sdb::type::is_char_type`
(`src/src/type.cpp` lines 41-50).  The return expression keeps the C++
operator precedence: `and` binds tighter than `or`, so the source
computes `(tag == base_type && encoding == signed_char) ||
encoding == unsigned_char`. -/
def isCharType (d : Die) : Option Bool :=
  match stripCvTypedef d with
  | none => none
  | some s =>
    match s.encoding with
    | none => some false
    | some enc =>
      some ((decide (s.tag = DW_TAG_base_type) && decide (enc = DW_ATE_signed_char))
            || decide (enc = DW_ATE_unsigned_char))

/-! ## Claim C1: `is_char_type` -/

/-- Concrete DIE refuting claim C1: an enumeration DIE (not a base type)
whose `DW_AT_encoding` is `DW_ATE_unsigned_char`. -/
def enumUnsignedCharDie : Die :=
  .mk DW_TAG_enumeration_type (some DW_ATE_unsigned_char) none none none []

/-! ## Claim C2: ELF load bias (`sdb::elf::notify_loaded`, `create_loaded_elf`)

The state of an `sdb::elf` object that load-bias tracking touches:
`e_type`/`e_entry` from the parsed ELF64 header and the `load_bias_`
member. -/

def ET_EXEC : Nat := 2

def ET_DYN : Nat := 3

structure Elf where
  eType : Nat
  eEntry : Nat
  loadBias : Nat
deriving Repr, DecidableEq

/-- Shallow embedding of `sdb::elf::notify_loaded`
(`src/include/libsdb/elf.hpp` line 37): it stores its argument directly
into `load_bias_`, with no case split on the ELF type and no arithmetic. -/
def notifyLoaded (e : Elf) (address : Nat) : Elf := { e with loadBias := address }

/-- Shallow embedding of the load-bias computation of `create_loaded_elf`
(`src/src/target.cpp` lines 4-13): the bias passed to `notify_loaded` is
`auxv[AT_ENTRY] - e_entry` (wrapping `std::uint64_t` subtraction),
computed identically for every ELF type. -/
def createLoadedElf (e : Elf) (auxvAtEntry : Nat) : Elf :=
  notifyLoaded e (u64sub auxvAtEntry e.eEntry)

/-- Modelled from the spec: `file_addr::to_virt_addr` lives in the address
primitives header (`types.hpp`), which is not among the provided sources;
the spec states the invariant `virt = file + elf.load_bias`. -/
def toVirtAddr (e : Elf) (fileAddress : Nat) : Nat := u64add fileAddress e.loadBias

/-! ## Claims C6 and C10: `die::contains_address` and
`dwarf::function_containing_address`

A DIE as consulted by `die::contains_address` (`src/unnamed/part_009`
lines 635-647): the ELF object of its compile unit, its tag, and the
attributes `DW_AT_ranges` (already iterated into base-address-resolved
`(low, high)` pairs), `DW_AT_low_pc` and `DW_AT_high_pc` (whose form may
or may not be `DW_FORM_addr`).  Fatal errors (`error::send`) are
`Except.error`. -/

structure FileAddr where
  elfId : Nat
  addr : Nat
deriving Repr, DecidableEq

structure DieRange where
  low : Nat
  high : Nat
deriving Repr, DecidableEq

structure AddrDie where
  elfId : Nat
  tag : Nat
  ranges : Option (List DieRange)
  lowPc : Option Nat
  highPcAttr : Option (Bool × Nat)
deriving Repr, DecidableEq

/-- Shallow embedding of `sdb::die::low_pc`: the first range-list entry's
low when `DW_AT_ranges` is present (dereferencing `begin()` of an empty
list is an error), else `DW_AT_low_pc`, else a fatal error. -/
def dieLowPc (d : AddrDie) : Except Unit Nat :=
  match d.ranges with
  | some rs =>
    match rs.head? with
    | some r => .ok r.low
    | none => .error ()
  | none =>
    match d.lowPc with
    | some lo => .ok lo
    | none => .error ()

/-- Shallow embedding of `sdb::die::high_pc`: the last range-list entry's
high when `DW_AT_ranges` is present; else `DW_AT_high_pc` taken as an
address when its form is `DW_FORM_addr` and as `low_pc() + value`
otherwise; else a fatal error. -/
def dieHighPc (d : AddrDie) : Except Unit Nat :=
  match d.ranges with
  | some rs =>
    match rs.getLast? with
    | some r => .ok r.high
    | none => .error ()
  | none =>
    match d.highPcAttr with
    | some (true, v) => .ok v
    | some (false, v) =>
      match dieLowPc d with
      | .ok lo => .ok (u64add lo v)
      | .error u => .error u
    | none => .error ()

/-- Shallow embedding of `sdb::range_list::contains`: OR of the entry
containment tests.  Modelled from the spec: the per-entry test
(`range_list::entry` lives in the missing `types.hpp`) is
`low ≤ addr < high`, per the spec's range-list description. -/
def rangeListContains (rs : List DieRange) (a : Nat) : Bool :=
  rs.any fun r => decide (r.low ≤ a) && decide (a < r.high)

/-- Shallow embedding of `sdb::die::contains_address`
(`src/unnamed/part_009` lines 635-647), keeping the C++ evaluation order:
the ELF identity check first, then `DW_AT_ranges`, then the
`DW_AT_low_pc`/`DW_AT_high_pc` comparison with `and` short-circuiting. -/
def containsAddress (d : AddrDie) (a : FileAddr) : Except Unit Bool :=
  if a.elfId ≠ d.elfId then .ok false
  else
    match d.ranges with
    | some rs => .ok (rangeListContains rs a.addr)
    | none =>
      match d.lowPc with
      | some lo =>
        if lo ≤ a.addr then
          match dieHighPc d with
          | .ok hi => .ok (decide (hi > a.addr))
          | .error u => .error u
        else .ok false
      | none => .ok false

/-- Shallow embedding of `sdb::dwarf::function_containing_address`
(`src/unnamed/part_009` lines 659-671): scan the function index, parse
each indexed DIE, and return the first one that contains the address and
whose tag is `DW_TAG_subprogram`. -/
def functionContainingAddress : List AddrDie → FileAddr → Except Unit (Option AddrDie)
  | [], _ => .ok none
  | d :: rest, a =>
    match containsAddress d a with
    | .error u => .error u
    | .ok cont =>
      if cont && decide (d.tag = DW_TAG_subprogram) then .ok (some d)
      else functionContainingAddress rest a

/-! ## Claim C7: compile-unit header parsing (`parse_compile_unit`,
`src/unnamed/part_009` lines 191-210)

The `.debug_info` stream is a byte list; reads are little-endian, and a
byte is reduced `% 256` to model raw memory. -/

def byteAt (bs : List Nat) (p : Nat) : Nat := bs.getD p 0 % 256

def readU8 (bs : List Nat) (p : Nat) : Nat := byteAt bs p

def readU16 (bs : List Nat) (p : Nat) : Nat :=
  byteAt bs p + 256 * byteAt bs (p + 1)

def readU32 (bs : List Nat) (p : Nat) : Nat :=
  byteAt bs p + 256 * byteAt bs (p + 1) + 256 ^ 2 * byteAt bs (p + 2) +
    256 ^ 3 * byteAt bs (p + 3)

structure CompileUnitModel where
  dataLen : Nat
  abbrevOffset : Nat
  version : Nat
  addressSize : Nat
deriving Repr, DecidableEq

/-- Shallow embedding of `parse_compile_unit`: read `unit_length` (u32) at
offset 0, `version` (u16) at 4, `debug_abbrev_offset` (u32) at 6,
`address_size` (u8) at 10; reject DWARF64 (`unit_length == 0xffffffff`),
any version other than 4 and any address size other than 8; on success
the unit borrows `unit_length + sizeof(u32)` bytes. -/
def parseCompileUnit (bs : List Nat) : Except String CompileUnitModel :=
  if readU32 bs 0 = 0xffffffff then .error "Only DWARF32 is supported"
  else if readU16 bs 4 ≠ 4 then .error "Only DWARF version 4 is supported"
  else if readU8 bs 10 ≠ 8 then .error "Invalid address size for DWARF"
  else .ok ⟨readU32 bs 0 + 4, readU32 bs 6, readU16 bs 4, readU8 bs 10⟩

/-! ## Line-number program (claims C3, C4, C9)

The DWARF line-table VM of `line_table::iterator::execute_instruction`
(`src/unnamed/part_009` lines 763-859), modelled at the granularity of
decoded instructions: the byte-level operand decoding (ULEB128 etc.) is
the cursor's business; the claims are about the register transitions. -/

/-- The VM register file and emitted row record (`line_table::entry`).
Field defaults of `entry{}` are modelled from the spec (the entry struct
lives in the line-table header, which is not among the provided sources):
`{address, file_index = 1, line = 1, column = 0, is_stmt = default,
flags = false, discriminator = 0}`. -/
structure LineEntry where
  address : Nat
  fileIndex : Nat
  line : Nat
  column : Nat
  isStmt : Bool
  basicBlockStart : Bool
  prologueEnd : Bool
  epilogueBegin : Bool
  endSequence : Bool
  discriminator : Nat
deriving Repr, DecidableEq

/-- Freshly value-initialized registers with `is_stmt` from the table's
`default_is_stmt`, as built by the iterator constructor and after
`DW_LNE_end_sequence`. -/
def initEntry (defaultIsStmt : Bool) : LineEntry :=
  { address := 0, fileIndex := 1, line := 1, column := 0,
    isStmt := defaultIsStmt, basicBlockStart := false, prologueEnd := false,
    epilogueBegin := false, endSequence := false, discriminator := 0 }

/-- Static parameters of one line-number program that
`execute_instruction` consults (stored on `sdb::line_table`). -/
structure LineParams where
  defaultIsStmt : Bool
  lineBase : Int
  lineRange : Nat
  opcodeBase : Nat
deriving Repr, DecidableEq

/-- Decoded line-number-program instructions: the standard opcodes
`DW_LNS_*` (1..12), the extended opcodes `DW_LNE_*`, and special opcodes
(`op ≥ opcode_base`) carrying the raw opcode value. -/
inductive LineInstr where
  | copy
  | advancePc (n : Nat)
  | advanceLine (n : Int)
  | setFile (n : Nat)
  | setColumn (n : Nat)
  | negateStmt
  | setBasicBlock
  | constAddPc
  | fixedAdvancePc (n : Nat)
  | setPrologueEnd
  | setEpilogueBegin
  | setIsa
  | endSequence
  | setAddress (a : Nat)
  | defineFile
  | setDiscriminator (n : Nat)
  | special (op : Nat)
deriving Repr, DecidableEq

/-- The reset applied right after emitting a row via `DW_LNS_copy` or a
special opcode: `basic_block_start`, `prologue_end`, `epilogue_begin`
back to false and `discriminator` back to 0. -/
def resetRowFlags (r : LineEntry) : LineEntry :=
  { r with basicBlockStart := false, prologueEnd := false,
           epilogueBegin := false, discriminator := 0 }

/-- Shallow embedding of `line_table::iterator::execute_instruction`:
one instruction's effect on the registers, returning the new register
file and the emitted row, if any. -/
def executeInstruction (p : LineParams) (r : LineEntry) :
    LineInstr → LineEntry × Option LineEntry
  | .copy => (resetRowFlags r, some r)
  | .advancePc n => ({ r with address := u64add r.address n }, none)
  | .advanceLine n => ({ r with line := u64addInt r.line n }, none)
  | .setFile n => ({ r with fileIndex := n }, none)
  | .setColumn n => ({ r with column := n }, none)
  | .negateStmt => ({ r with isStmt := !r.isStmt }, none)
  | .setBasicBlock => ({ r with basicBlockStart := true }, none)
  | .constAddPc =>
    ({ r with address := u64add r.address ((255 - p.opcodeBase) / p.lineRange) }, none)
  | .fixedAdvancePc n => ({ r with address := u64add r.address n }, none)
  | .setPrologueEnd => ({ r with prologueEnd := true }, none)
  | .setEpilogueBegin => ({ r with epilogueBegin := true }, none)
  | .setIsa => (r, none)
  | .endSequence =>
    (initEntry p.defaultIsStmt, some { r with endSequence := true })
  | .setAddress a => ({ r with address := a % U64MOD }, none)
  | .defineFile => (r, none)
  | .setDiscriminator n => ({ r with discriminator := n }, none)
  | .special op =>
    let adjusted := op - p.opcodeBase
    let r1 := { r with
      address := u64add r.address (adjusted / p.lineRange),
      line := u64addInt r.line (p.lineBase + (adjusted % p.lineRange : Nat)) }
    (resetRowFlags r1, some r1)

/-- Rows emitted while executing the rest of the program from register
state `r`: iterating the table's iterator from here to `end()`. -/
def runLineProgram (p : LineParams) (r : LineEntry) : List LineInstr → List LineEntry
  | [] => []
  | i :: rest =>
    match executeInstruction p r i with
    | (r2, some row) => row :: runLineProgram p r2 rest
    | (r2, none) => runLineProgram p r2 rest

/-- Rows yielded by iterating `line_table::begin()` to `end()`. -/
def lineTableRows (p : LineParams) (prog : List LineInstr) : List LineEntry :=
  runLineProgram p (initEntry p.defaultIsStmt) prog

/-- Inner loop of `line_table::get_entry_by_address` over the emitted
rows: scan consecutive row pairs `(prev, it)` and return the first
`prev` with `prev.address ≤ addr`, `it.address > addr` and `prev` not an
end-sequence row. -/
def searchRows (a : Nat) : LineEntry → List LineEntry → Option LineEntry
  | _, [] => none
  | prev, it :: rest =>
    if prev.address ≤ a ∧ a < it.address ∧ prev.endSequence = false then some prev
    else searchRows a it rest

/-- Shallow embedding of `line_table::get_entry_by_address`
(`src/unnamed/part_009` lines 861-876). -/
def getEntryByAddress (p : LineParams) (prog : List LineInstr) (a : Nat) :
    Option LineEntry :=
  match lineTableRows p prog with
  | [] => none
  | prev :: rest => searchRows a prev rest

/-- The line-table header fields validated by `parse_line_table`
(`src/unnamed/part_009` lines 247-311). -/
structure LineHeader where
  version : Nat
  minimumInstructionLength : Nat
  maximumOperationsPerInstruction : Nat
  opcodeBase : Nat
  stdOpcodeLengths : List Nat
deriving Repr, DecidableEq

/-- DWARF4 default standard-opcode operand counts that
`parse_line_table` validates byte for byte. -/
def expectedOpcodeLengths : List Nat := [0, 1, 1, 1, 1, 0, 0, 0, 1, 0, 0, 1]

/-- The fatal-error checks of `parse_line_table`: version 4, minimum
instruction length 1, maximum operations per instruction 1, and the
DWARF4 standard opcode lengths. -/
def lineHeaderAccepts (h : LineHeader) : Bool :=
  decide (h.version = 4) && decide (h.minimumInstructionLength = 1) &&
  decide (h.maximumOperationsPerInstruction = 1) &&
  (List.range (h.opcodeBase - 1)).all
    (fun i => h.stdOpcodeLengths.getD i 0 == expectedOpcodeLengths.getD i 0)

/-- Concrete line program for the C3 and C9 witnesses: one sequence with
rows at addresses 100 and 116. -/
def singleSeqProg : List LineInstr :=
  [.setAddress 100, .copy, .advancePc 16, .copy, .endSequence]

/-- Concrete line-table parameters shared by the witnesses. -/
def witnessParams : LineParams :=
  { defaultIsStmt := false, lineBase := -5, lineRange := 14, opcodeBase := 13 }

/-! ## Claim C9: address monotonicity of emitted rows -/

/-- Claim-C9 property: across the iteration the `address` field is
non-decreasing within each sequence, i.e. over every consecutive row
pair whose first row is not an end-sequence row. -/
def addressesMonotone (rows : List LineEntry) : Prop :=
  ∀ pr ∈ rows.zip rows.tail, pr.1.endSequence = false → pr.1.address ≤ pr.2.address

/-- A line program whose `DW_LNE_set_address` instructions occur only at
a sequence start, before any row of the current sequence has been
emitted.  The flag records whether the current sequence has emitted a
row yet. -/
def seqStartOnlySetAddress : Bool → List LineInstr → Bool
  | _, [] => true
  | b, i :: rest =>
    match i with
    | .setAddress _ => !b && seqStartOnlySetAddress b rest
    | .copy => seqStartOnlySetAddress true rest
    | .special _ => seqStartOnlySetAddress true rest
    | .endSequence => seqStartOnlySetAddress false rest
    | _ => seqStartOnlySetAddress b rest

/-- One instruction's address increment does not wrap modulo `2 ^ 64`
from register state `r`. -/
def stepNoWrap (p : LineParams) (r : LineEntry) : LineInstr → Bool
  | .advancePc n => decide (r.address + n < U64MOD)
  | .constAddPc => decide (r.address + (255 - p.opcodeBase) / p.lineRange < U64MOD)
  | .fixedAdvancePc n => decide (r.address + n < U64MOD)
  | .special op => decide (r.address + (op - p.opcodeBase) / p.lineRange < U64MOD)
  | _ => true

/-- No address addition wraps modulo `2 ^ 64` while running the program
from register state `r`. -/
def noAddressWrap (p : LineParams) : LineEntry → List LineInstr → Bool
  | _, [] => true
  | r, i :: rest =>
    stepNoWrap p r i && noAddressWrap p (executeInstruction p r i).1 rest

/-- Concrete line program refuting claim C9: a mid-sequence
`DW_LNE_set_address` moves the address backwards. -/
def decreasingProg : List LineInstr :=
  [.setAddress 100, .copy, .setAddress 50, .copy, .endSequence]

/-! ## Claim C8: DIE sibling traversal
(`die::children_range::iterator::operator++`, `src/unnamed/part_009`
lines 378-400)

The `.debug_info` contents of one compile unit are modelled at DIE
granularity: a slot is either a DIE header (its abbrev's `has_children`
flag plus the decoded `DW_AT_sibling` target when the abbrev carries
one) or the terminator (abbrev code 0).  Positions are slot indices; a
DIE's `next` is the following slot, as `parse_die` leaves the cursor
after the DIE's attributes. -/

inductive DieTok where
  | entry (hasChildren : Bool) (sibling : Option Nat)
  | term
deriving Repr, DecidableEq

/-- A parsed DIE handle as built by `parse_die`: position, `next`,
null-ness (abbrev code 0), the abbrev's `has_children`, and the decoded
`DW_AT_sibling` target, if any. -/
structure ParsedDie where
  pos : Nat
  next : Nat
  isNull : Bool
  hasChildren : Bool
  sibling : Option Nat
deriving Repr, DecidableEq

/-- Shallow embedding of `parse_die` at a slot position; `none` means
the cursor ran off the compile unit's data. -/
def parseAt (data : List DieTok) (i : Nat) : Option ParsedDie :=
  match data[i]? with
  | some (.entry hc sib) => some ⟨i, i + 1, false, hc, sib⟩
  | some .term => some ⟨i, i + 1, true, false, none⟩
  | none => none

mutual

/-- Shallow embedding of `children_range::iterator::operator++`: a null
iterator stays put; a DIE without children parses at `next`; a DIE with
children carrying `DW_AT_sibling` jumps to the referenced position;
otherwise walk the DIE's own child iterator to the terminator and parse
at that terminator's `next`.  The fuel bounds the recursion (the C++
runs without bound on malformed data); `none` means it ran out. -/
def advanceDie : Nat → List DieTok → ParsedDie → Option ParsedDie
  | 0, _, _ => none
  | fuel + 1, data, d =>
    if d.isNull then some d
    else if d.hasChildren = false then parseAt data d.next
    else
      match d.sibling with
      | some s => parseAt data s
      | none =>
        match parseAt data d.next with
        | some sub =>
          match walkToTerm fuel data sub with
          | some t => parseAt data t.next
          | none => none
        | none => none

/-- The `while (sub_children->abbrev_) sub_children++` loop: advance the
child iterator until the null (terminator) DIE. -/
def walkToTerm : Nat → List DieTok → ParsedDie → Option ParsedDie
  | 0, _, _ => none
  | fuel + 1, data, d =>
    if d.isNull then some d
    else
      match advanceDie fuel data d with
      | some d2 => walkToTerm fuel data d2
      | none => none

end

mutual

/-- A DIE subtree in serialized order: whether a `DW_AT_sibling`
attribute is emitted, and `none` children when the abbrev has
`has_children == 0` (childless DIEs are not followed by a terminator). -/
inductive DieTree where
  | node (emitSibling : Bool) (children : Option DieForest)

/-- A list of sibling DIE subtrees. -/
inductive DieForest where
  | nil
  | cons (t : DieTree) (rest : DieForest)

end

mutual

/-- Number of slots a serialized subtree occupies. -/
def sizeTree : DieTree → Nat
  | .node _ none => 1
  | .node _ (some f) => 2 + sizeForest f

/-- Number of slots a serialized forest occupies (without the parent's
terminator). -/
def sizeForest : DieForest → Nat
  | .nil => 0
  | .cons t rest => sizeTree t + sizeForest rest

end

mutual

/-- Serialize a subtree at absolute position `p`; an emitted
`DW_AT_sibling` holds the position right after the subtree. -/
def serTree (p : Nat) : DieTree → List DieTok
  | .node sib none =>
    [.entry false (if sib then some (p + 1) else none)]
  | .node sib (some f) =>
    .entry true (if sib then some (p + 2 + sizeForest f) else none) ::
      (serForest (p + 1) f ++ [.term])

/-- Serialize a forest of siblings starting at absolute position `p`. -/
def serForest (p : Nat) : DieForest → List DieTok
  | .nil => []
  | .cons t rest => serTree p t ++ serForest (p + sizeTree t) rest

end

mutual

/-- Fuel sufficient for `advanceDie` over a serialized subtree. -/
def fuelTree : DieTree → Nat
  | .node _ none => 1
  | .node _ (some f) => 1 + fuelForest f

/-- Fuel sufficient for `walkToTerm` over a serialized forest. -/
def fuelForest : DieForest → Nat
  | .nil => 1
  | .cons t rest => 1 + fuelTree t + fuelForest rest

end

/-- The data holds exactly the given slots starting at position `p`. -/
def tokensAt (data : List DieTok) (p : Nat) (l : List DieTok) : Prop :=
  ∀ k, k < l.length → data[p + k]? = l[k]?

instance (data : List DieTok) (p : Nat) (l : List DieTok) :
    Decidable (tokensAt data p l) := by
  unfold tokensAt
  infer_instance

/-- Concrete three-DIE subtree for the C8 witness: a parent with two
childless children, followed by its sibling. -/
def c8tree : DieTree :=
  .node false (some (.cons (.node false none) (.cons (.node false none) .nil)))

/-- Concrete DIE stream for the C8 witness: the serialized subtree at
position 0 with the following sibling DIE at position 4. -/
def c8data : List DieTok := serTree 0 c8tree ++ [.entry false none]

/-- C1 counterexample: `is_char_type` returns `true` on a DIE whose
CV/typedef-stripped form is not a `DW_TAG_base_type` but carries
`DW_ATE_unsigned_char`, contradicting the claim that it returns false for
every non-base_type DIE regardless of encoding.  The C++ `and`/`or`
precedence lets `encoding == unsigned_char` bypass the tag test. -/
theorem isCharType_nonBase_counterexample :
    isCharType enumUnsignedCharDie = some true ∧
    stripCvTypedef enumUnsignedCharDie = some enumUnsignedCharDie ∧
    enumUnsignedCharDie.encoding = some DW_ATE_unsigned_char ∧
    enumUnsignedCharDie.tag ≠ DW_TAG_base_type :=
  ⟨rfl, rfl, rfl, by decide⟩

/-- C1 (amended): for every type whose CV/typedef-stripped DIE carries a
`DW_AT_encoding`, `type::is_char_type` returns true if and only if the
stripped encoding is `DW_ATE_unsigned_char`, or the stripped tag is
`DW_TAG_base_type` and the encoding is `DW_ATE_signed_char`; when the
stripped DIE carries no encoding it returns false. -/
theorem isCharType_spec (d s : Die) (h : stripCvTypedef d = some s) :
    (s.encoding = none → isCharType d = some false) ∧
    (∀ enc, s.encoding = some enc →
      (isCharType d = some true ↔
        ((s.tag = DW_TAG_base_type ∧ enc = DW_ATE_signed_char) ∨
          enc = DW_ATE_unsigned_char))) := by
  constructor
  · intro henc
    simp [isCharType, h, henc]
  · intro enc henc
    simp only [isCharType, h, henc, Option.some.injEq]
    constructor
    · intro hb
      rcases Bool.or_eq_true_iff.mp hb with hb | hb
      · rcases Bool.and_eq_true_iff.mp hb with ⟨h1, h2⟩
        exact Or.inl ⟨of_decide_eq_true h1, of_decide_eq_true h2⟩
      · exact Or.inr (of_decide_eq_true hb)
    · rintro (⟨h1, h2⟩ | h1)
      · simp [h1, h2]
      · simp [h1]

/-- Witness for the amended C1 theorem at a concrete signed-char base
type DIE. -/
theorem isCharType_spec_witness :
    isCharType (Die.mk DW_TAG_base_type (some DW_ATE_signed_char) none none none [])
      = some true :=
  ((isCharType_spec
      (Die.mk DW_TAG_base_type (some DW_ATE_signed_char) none none none [])
      (Die.mk DW_TAG_base_type (some DW_ATE_signed_char) none none none [])
      rfl).2 DW_ATE_signed_char rfl).mpr (Or.inl ⟨rfl, rfl⟩)

/-! ## Claim C5: `compute_byte_size` -/

/-- Helper: the array-size loop of `compute_byte_size` equals a plain
left fold of `size *= upper_bound + 1` over the subrange children,
provided every subrange child carries `DW_AT_upper_bound`. -/
theorem arrayByteSizeFold_eq_foldl (c : List Die) :
    ∀ acc, (∀ ch ∈ c, ch.tag = DW_TAG_subrange_type → ch.upperBound.isSome) →
    arrayByteSizeFold acc c =
      some (c.foldl
        (fun a ch => if ch.tag = DW_TAG_subrange_type
                      then u64mul a (u64add (ch.upperBound.getD 0) 1) else a) acc) := by
  induction c with
  | nil => intro acc _; rfl
  | cons ch rest ih =>
    intro acc hub
    by_cases hc : ch.tag = DW_TAG_subrange_type
    · obtain ⟨ub, hubv⟩ := Option.isSome_iff_exists.mp
        (hub ch (List.mem_cons_self ch rest) hc)
      simp only [arrayByteSizeFold, hc, if_pos, hubv, List.foldl_cons, if_true]
      rw [ih _ fun x hx => hub x (List.mem_cons_of_mem ch hx)]
      simp [hubv]
    · simp only [arrayByteSizeFold, hc, if_neg, List.foldl_cons, if_false]
      exact ih _ fun x hx => hub x (List.mem_cons_of_mem ch hx)

/-- C5: `type::byte_size` computes: 8 for `pointer_type`; 8 for
`ptr_to_member_type` except 16 when the referent of its `DW_AT_type` is a
subrange; for `array_type` the element type's byte size multiplied by
`upper_bound + 1` over every `subrange_type` child (wrapping `size_t`
arithmetic); otherwise the `DW_AT_byte_size` value when present, else the
byte size of the `DW_AT_type` referent, else 0. -/
theorem computeByteSize_spec (t : Nat) (e b u : Option Nat) (r : Option Die)
    (c : List Die) :
    (t = DW_TAG_pointer_type →
      computeByteSize (Die.mk t e b u r c) = some 8) ∧
    (t = DW_TAG_ptr_to_member_type → ∀ m, r = some m →
      computeByteSize (Die.mk t e b u r c) =
        some (if m.tag = DW_TAG_subrange_type then 16 else 8)) ∧
    (t = DW_TAG_array_type → ∀ m v, r = some m → computeByteSize m = some v →
      (∀ ch ∈ c, ch.tag = DW_TAG_subrange_type → ch.upperBound.isSome) →
      computeByteSize (Die.mk t e b u r c) =
        some (c.foldl
          (fun a ch => if ch.tag = DW_TAG_subrange_type
                        then u64mul a (u64add (ch.upperBound.getD 0) 1) else a) v)) ∧
    (t ≠ DW_TAG_pointer_type → t ≠ DW_TAG_ptr_to_member_type →
      t ≠ DW_TAG_array_type → ∀ n, b = some n →
      computeByteSize (Die.mk t e b u r c) = some n) ∧
    (t ≠ DW_TAG_pointer_type → t ≠ DW_TAG_ptr_to_member_type →
      t ≠ DW_TAG_array_type → b = none → ∀ tr, r = some tr →
      computeByteSize (Die.mk t e b u r c) = computeByteSize tr) ∧
    (t ≠ DW_TAG_pointer_type → t ≠ DW_TAG_ptr_to_member_type →
      t ≠ DW_TAG_array_type → b = none → r = none →
      computeByteSize (Die.mk t e b u r c) = some 0) := by
  refine ⟨?_, ?_, ?_, ?_, ?_, ?_⟩
  · intro ht; subst ht
    rw [computeByteSize.eq_def]
    simp [DW_TAG_pointer_type]
  · intro ht m hr; subst ht; subst hr
    rw [computeByteSize.eq_def]
    simp [DW_TAG_pointer_type, DW_TAG_ptr_to_member_type]
  · intro ht m v hr hm hub; subst ht; subst hr
    rw [computeByteSize.eq_def]
    simp only [DW_TAG_pointer_type, DW_TAG_ptr_to_member_type, DW_TAG_array_type,
      show (1 : Nat) ≠ 15 by decide, show (1 : Nat) ≠ 31 by decide,
      if_false, if_true, hm, reduceIte]
    exact arrayByteSizeFold_eq_foldl c v hub
  · intro h1 h2 h3 n hb; subst hb
    rw [computeByteSize.eq_def]; simp [h1, h2, h3]
  · intro h1 h2 h3 hb tr hr; subst hb; subst hr
    rw [computeByteSize.eq_def]; simp [h1, h2, h3]
  · intro h1 h2 h3 hb hr; subst hb; subst hr
    rw [computeByteSize.eq_def]; simp [h1, h2, h3]

/-- Witness for the C5 theorem: a pointer DIE, a member-function-pointer
DIE, a 6-element array of a 4-byte base type, and a 4-byte base type. -/
theorem computeByteSize_spec_witness :
    computeByteSize (Die.mk DW_TAG_pointer_type none none none none []) = some 8 ∧
    computeByteSize (Die.mk DW_TAG_ptr_to_member_type none none none
      (some (Die.mk DW_TAG_subrange_type none none none none [])) []) = some 16 ∧
    computeByteSize (Die.mk DW_TAG_array_type none none none
      (some (Die.mk DW_TAG_base_type none (some 4) none none []))
      [Die.mk DW_TAG_subrange_type none none (some 5) none []]) = some 24 ∧
    computeByteSize (Die.mk DW_TAG_base_type none (some 4) none none []) = some 4 := by
  refine ⟨?_, ?_, ?_, ?_⟩
  · exact (computeByteSize_spec DW_TAG_pointer_type none none none none []).1 rfl
  · have h := (computeByteSize_spec DW_TAG_ptr_to_member_type none none none
      (some (Die.mk DW_TAG_subrange_type none none none none [])) []).2.1 rfl
      (Die.mk DW_TAG_subrange_type none none none none []) rfl
    simpa using h
  · have h := (computeByteSize_spec DW_TAG_array_type none none none
      (some (Die.mk DW_TAG_base_type none (some 4) none none []))
      [Die.mk DW_TAG_subrange_type none none (some 5) none []]).2.2.1 rfl
      (Die.mk DW_TAG_base_type none (some 4) none none []) 4 rfl rfl
      (by intro ch hch _; simp at hch; subst hch; rfl)
    simpa [u64mul, u64add, U64MOD] using h
  · exact (computeByteSize_spec DW_TAG_base_type none (some 4) none none []).2.2.2.1
      (by decide) (by decide) (by decide) 4 rfl

/-- C2 counterexample: on an `ET_EXEC` object with `e_entry = 0x1000`,
`notify_loaded(0x5000)` records `0x5000` itself, not
`0x5000 - 0x1000`: `notify_loaded` performs no subtraction and no
`ET_EXEC`/`ET_DYN` case split. -/
theorem notifyLoaded_etexec_counterexample :
    (notifyLoaded ⟨ET_EXEC, 0x1000, 0⟩ 0x5000).loadBias = 0x5000 ∧
    (notifyLoaded ⟨ET_EXEC, 0x1000, 0⟩ 0x5000).loadBias ≠ 0x5000 - 0x1000 := by
  decide

/-- C2 (amended): `elf::notify_loaded(base)` records `base` itself as the
load bias, for every ELF type; the subtraction happens in its caller
`create_loaded_elf`, which passes `auxv[AT_ENTRY] - e_entry`, so after
`create_loaded_elf` the recorded bias is `AT_ENTRY - e_entry`; and after
`notify_loaded(base)` every virtual address equals the corresponding file
address plus the recorded bias. -/
theorem notifyLoaded_spec (e : Elf) (base atEntry f : Nat) :
    (notifyLoaded e base).loadBias = base ∧
    (createLoadedElf e atEntry).loadBias = u64sub atEntry e.eEntry ∧
    toVirtAddr (notifyLoaded e base) f = u64add f base :=
  ⟨rfl, rfl, rfl⟩

/-- C10: `die::contains_address` returns false whenever the address's
owning ELF differs from the ELF of the DIE's compile unit, regardless of
the DIE's range attributes, and returns false when the DIE carries
neither `DW_AT_ranges` nor `DW_AT_low_pc`. -/
theorem containsAddress_guards (d : AddrDie) (a : FileAddr) :
    (a.elfId ≠ d.elfId → containsAddress d a = .ok false) ∧
    (d.ranges = none → d.lowPc = none → containsAddress d a = .ok false) := by
  constructor
  · intro h
    simp [containsAddress, h]
  · intro hr hl
    by_cases he : a.elfId = d.elfId
    · simp [containsAddress, he, hr, hl]
    · simp [containsAddress, he]

/-- Witness for the C10 theorem: a DIE of ELF 1 against an address of
ELF 2, and an attribute-less DIE against an address of its own ELF. -/
theorem containsAddress_guards_witness :
    containsAddress ⟨1, DW_TAG_subprogram, some [⟨0, 100⟩], some 0, none⟩ ⟨2, 50⟩
      = .ok false ∧
    containsAddress ⟨1, DW_TAG_subprogram, none, none, none⟩ ⟨1, 50⟩
      = .ok false :=
  ⟨(containsAddress_guards ⟨1, DW_TAG_subprogram, some [⟨0, 100⟩], some 0, none⟩
      ⟨2, 50⟩).1 (by decide),
   (containsAddress_guards ⟨1, DW_TAG_subprogram, none, none, none⟩
      ⟨1, 50⟩).2 rfl rfl⟩

/-- C6: whenever `dwarf::function_containing_address` returns a function
DIE `d` rather than `nullopt` (or a fatal error), `d.contains_address(a)`
holds. -/
theorem functionContainingAddress_contains (idx : List AddrDie) (a : FileAddr)
    (d : AddrDie) (h : functionContainingAddress idx a = .ok (some d)) :
    containsAddress d a = .ok true := by
  induction idx with
  | nil => simp [functionContainingAddress] at h
  | cons d0 rest ih =>
    rw [functionContainingAddress] at h
    revert h
    cases hc : containsAddress d0 a with
    | error u => intro h; cases h
    | ok cont =>
      by_cases hif : cont && decide (d0.tag = DW_TAG_subprogram)
      · simp only [hif, if_true]
        intro h
        cases h
        rcases Bool.and_eq_true_iff.mp hif with ⟨hcont, _⟩
        rwa [hcont] at hc
      · simp only [hif, if_false]
        exact ih

/-- Witness for the C6 theorem: a one-entry function index whose
subprogram DIE spans `[0x400000, 0x400100)`, queried at `0x400050`. -/
theorem functionContainingAddress_contains_witness :
    containsAddress ⟨7, DW_TAG_subprogram, none, some 0x400000, some (true, 0x400100)⟩
      ⟨7, 0x400050⟩ = .ok true :=
  functionContainingAddress_contains
    [⟨7, DW_TAG_subprogram, none, some 0x400000, some (true, 0x400100)⟩]
    ⟨7, 0x400050⟩
    ⟨7, DW_TAG_subprogram, none, some 0x400000, some (true, 0x400100)⟩
    (by rfl)

/-- Helper: a byte read below offset 11 only depends on the first 11
bytes of the stream. -/
theorem byteAt_congr_take11 (bs bs2 : List Nat) (h : bs.take 11 = bs2.take 11)
    (p : Nat) (hp : p < 11) : byteAt bs p = byteAt bs2 p := by
  unfold byteAt
  have e1 : (List.take 11 bs)[p]? = bs[p]? := by
    rw [List.getElem?_take]; simp [hp]
  have e2 : (List.take 11 bs2)[p]? = bs2[p]? := by
    rw [List.getElem?_take]; simp [hp]
  rw [List.getD_eq_getElem?_getD, List.getD_eq_getElem?_getD, ← e1, ← e2, h]

/-- C7: `parse_compile_unit` reads exactly the fixed 11-byte header
layout (its result depends only on the first 11 bytes); it fails exactly
when the unit is DWARF64, the version is not 4, or the address size is
not 8; and every conforming header yields a compile unit borrowing
exactly `unit_length + 4` bytes. -/
theorem parseCompileUnit_spec :
    (∀ bs bs2 : List Nat, bs.take 11 = bs2.take 11 →
      parseCompileUnit bs = parseCompileUnit bs2) ∧
    (∀ bs, (∃ cu, parseCompileUnit bs = .ok cu) ↔
      (readU32 bs 0 ≠ 0xffffffff ∧ readU16 bs 4 = 4 ∧ readU8 bs 10 = 8)) ∧
    (∀ bs cu, parseCompileUnit bs = .ok cu →
      cu.dataLen = readU32 bs 0 + 4 ∧ cu.version = 4 ∧ cu.addressSize = 8) := by
  refine ⟨?_, ?_, ?_⟩
  · intro bs bs2 h
    have hb : ∀ p, p < 11 → byteAt bs p = byteAt bs2 p :=
      byteAt_congr_take11 bs bs2 h
    unfold parseCompileUnit readU32 readU16 readU8
    rw [hb 0 (by decide), hb 1 (by decide), hb 2 (by decide), hb 3 (by decide),
      hb 4 (by decide), hb 5 (by decide), hb 6 (by decide), hb 7 (by decide),
      hb 8 (by decide), hb 9 (by decide), hb 10 (by decide)]
  · intro bs
    unfold parseCompileUnit
    by_cases h1 : readU32 bs 0 = 0xffffffff
    · simp [h1]
    · by_cases h2 : readU16 bs 4 = 4
      · by_cases h3 : readU8 bs 10 = 8
        · simp [h1, h2, h3]
        · simp [h1, h2, h3]
      · simp [h1, h2]
  · intro bs cu h
    unfold parseCompileUnit at h
    by_cases h1 : readU32 bs 0 = 0xffffffff
    · rw [if_pos h1] at h; cases h
    · rw [if_neg h1] at h
      by_cases h2 : readU16 bs 4 = 4
      · rw [if_neg (by simp [h2])] at h
        by_cases h3 : readU8 bs 10 = 8
        · rw [if_neg (by simp [h3])] at h
          cases h
          exact ⟨rfl, h2, h3⟩
        · rw [if_pos h3] at h; cases h
      · rw [if_pos h2] at h; cases h

/-- Witness for the C7 theorem: the concrete conforming header
`unit_length = 0x20, version = 4, abbrev offset = 0, address size = 8`,
read the same whatever follows the first 11 bytes. -/
theorem parseCompileUnit_spec_witness :
    (∃ cu, parseCompileUnit [0x20, 0, 0, 0, 4, 0, 0, 0, 0, 0, 8] = .ok cu) ∧
    parseCompileUnit [0x20, 0, 0, 0, 4, 0, 0, 0, 0, 0, 8] =
      parseCompileUnit [0x20, 0, 0, 0, 4, 0, 0, 0, 0, 0, 8, 0xff, 0xff] ∧
    ∀ cu, parseCompileUnit [0x20, 0, 0, 0, 4, 0, 0, 0, 0, 0, 8] = .ok cu →
      cu.dataLen = 0x24 :=
  ⟨(parseCompileUnit_spec.2.1 [0x20, 0, 0, 0, 4, 0, 0, 0, 0, 0, 8]).mpr
      ⟨by decide, by decide, by decide⟩,
   parseCompileUnit_spec.1 _ _ (by decide),
   fun cu h => by
    have := (parseCompileUnit_spec.2.2 _ cu h).1
    simpa [readU32, byteAt] using this⟩

/-- Helper: correctness of the consecutive-pair scan of
`get_entry_by_address`. -/
theorem searchRows_spec (a : Nat) :
    ∀ (rest : List LineEntry) (prev : LineEntry),
      (∀ r, searchRows a prev rest = some r →
        ∃ nxt, (r, nxt) ∈ (prev :: rest).zip rest ∧
          r.address ≤ a ∧ a < nxt.address ∧ r.endSequence = false) ∧
      (searchRows a prev rest = none →
        ∀ pr ∈ (prev :: rest).zip rest,
          ¬(pr.1.address ≤ a ∧ a < pr.2.address ∧ pr.1.endSequence = false)) := by
  intro rest
  induction rest with
  | nil =>
    intro prev
    refine ⟨?_, ?_⟩
    · intro r h; cases h
    · intro _ pr hpr; simp at hpr
  | cons it rest2 ih =>
    intro prev
    constructor
    · intro r h
      rw [searchRows] at h
      by_cases hc : prev.address ≤ a ∧ a < it.address ∧ prev.endSequence = false
      · rw [if_pos hc] at h
        cases h
        exact ⟨it, by simp [List.zip_cons_cons], hc⟩
      · rw [if_neg hc] at h
        obtain ⟨nxt, hmem, hcond⟩ := (ih it).1 r h
        exact ⟨nxt, by simp only [List.zip_cons_cons, List.mem_cons]; right; exact hmem,
          hcond⟩
    · intro h pr hpr
      rw [searchRows] at h
      by_cases hc : prev.address ≤ a ∧ a < it.address ∧ prev.endSequence = false
      · rw [if_pos hc] at h; cases h
      · rw [if_neg hc] at h
        rcases List.mem_cons.mp (by simpa [List.zip_cons_cons] using hpr) with hh | hh
        · subst hh; exact hc
        · exact (ih it).2 h pr hh

/-- C3: for every line table and file address `addr`,
`get_entry_by_address(addr)` returns an emitted row `prev` whose
successor row `next` satisfies `prev.address ≤ addr < next.address` with
`prev` not an end-sequence row; when no consecutive row pair satisfies
this, it returns the end iterator (`none`). -/
theorem getEntryByAddress_spec (p : LineParams) (prog : List LineInstr) (a : Nat) :
    (∀ r, getEntryByAddress p prog a = some r →
      ∃ nxt, (r, nxt) ∈ (lineTableRows p prog).zip (lineTableRows p prog).tail ∧
        r.address ≤ a ∧ a < nxt.address ∧ r.endSequence = false) ∧
    (getEntryByAddress p prog a = none →
      ∀ pr ∈ (lineTableRows p prog).zip (lineTableRows p prog).tail,
        ¬(pr.1.address ≤ a ∧ a < pr.2.address ∧ pr.1.endSequence = false)) := by
  unfold getEntryByAddress
  cases hrows : lineTableRows p prog with
  | nil =>
    refine ⟨?_, ?_⟩
    · intro r h; cases h
    · intro _ pr hpr; simp at hpr
  | cons prev rest =>
    simpa using searchRows_spec a rest prev

/-- Witness for the C3 theorem: querying address 105 between the rows at
100 and 116 yields the row at 100 with its successor at 116. -/
theorem getEntryByAddress_spec_witness :
    ∃ nxt, ((⟨100, 1, 1, 0, false, false, false, false, false, 0⟩ : LineEntry), nxt) ∈
      (lineTableRows witnessParams singleSeqProg).zip
        (lineTableRows witnessParams singleSeqProg).tail ∧
      (⟨100, 1, 1, 0, false, false, false, false, false, 0⟩ : LineEntry).address ≤ 105 ∧
      105 < nxt.address ∧
      (⟨100, 1, 1, 0, false, false, false, false, false, 0⟩ : LineEntry).endSequence = false :=
  (getEntryByAddress_spec witnessParams singleSeqProg 105).1
    ⟨100, 1, 1, 0, false, false, false, false, false, 0⟩ (by decide)

/-- C4: for a line-number program whose header passed the
`parse_line_table` checks (so its minimum instruction length is 1), a
special opcode `op ≥ opcode_base` advances the address register by
`(op - opcode_base) / line_range * minimum_instruction_length`, advances
the line register by `line_base + (op - opcode_base) % line_range`
(wrapping 64-bit arithmetic), emits exactly that row, and resets
`basic_block_start`, `prologue_end`, `epilogue_begin` and the
discriminator to their defaults while leaving the other registers
unchanged. -/
theorem executeInstruction_special_spec (hd : LineHeader) (p : LineParams)
    (r : LineEntry) (op : Nat) (hacc : lineHeaderAccepts hd = true)
    (_hop : p.opcodeBase ≤ op) :
    (executeInstruction p r (.special op)).2 =
      some { r with
        address := u64add r.address
          ((op - p.opcodeBase) / p.lineRange * hd.minimumInstructionLength),
        line := u64addInt r.line
          (p.lineBase + ((op - p.opcodeBase) % p.lineRange : Nat)) } ∧
    (executeInstruction p r (.special op)).1 =
      { address := u64add r.address
          ((op - p.opcodeBase) / p.lineRange * hd.minimumInstructionLength),
        fileIndex := r.fileIndex,
        line := u64addInt r.line
          (p.lineBase + ((op - p.opcodeBase) % p.lineRange : Nat)),
        column := r.column, isStmt := r.isStmt, basicBlockStart := false,
        prologueEnd := false, epilogueBegin := false,
        endSequence := r.endSequence, discriminator := 0 } := by
  have hmil : hd.minimumInstructionLength = 1 := by
    have h2 := (Bool.and_eq_true_iff.mp
      ((Bool.and_eq_true_iff.mp
        ((Bool.and_eq_true_iff.mp hacc).1)).1)).2
    exact of_decide_eq_true h2
  rw [hmil, Nat.mul_one]
  exact ⟨rfl, rfl⟩

/-- Witness for the C4 theorem: the DWARF4 default header
(`line_base = -5`, `line_range = 14`, `opcode_base = 13`) executing
special opcode 20 from the initial registers: `adjusted = 7`, so the
address advances by 0 and the line by `-5 + 7 = 2`. -/
theorem executeInstruction_special_spec_witness :
    (executeInstruction witnessParams (initEntry false) (.special 20)).2 =
      some { initEntry false with address := 0, line := 3 } ∧
    (executeInstruction witnessParams (initEntry false) (.special 20)).1 =
      { initEntry false with address := 0, line := 3 } := by
  have h := executeInstruction_special_spec
    ⟨4, 1, 1, 13, expectedOpcodeLengths⟩ witnessParams (initEntry false) 20
    (by decide) (by decide)
  refine ⟨?_, ?_⟩
  · rw [h.1]; decide
  · rw [h.2]; decide

/-- C9 counterexample: executing
`[set_address 100, copy, set_address 50, copy, end_sequence]` yields the
row addresses `[100, 50, 50]` inside a single sequence, so iterating the
table is not non-decreasing in `address` between end-sequence rows. -/
theorem lineTableRows_monotone_counterexample :
    (lineTableRows witnessParams decreasingProg).map LineEntry.address = [100, 50, 50] ∧
    (lineTableRows witnessParams decreasingProg).map LineEntry.endSequence =
      [false, false, true] ∧
    ¬ addressesMonotone (lineTableRows witnessParams decreasingProg) := by
  refine ⟨by decide, by decide, ?_⟩
  intro h
  have := h ((lineTableRows witnessParams decreasingProg).get ⟨0, by decide⟩,
             (lineTableRows witnessParams decreasingProg).get ⟨1, by decide⟩)
  revert this
  decide

theorem U64MOD_pos : 0 < U64MOD := by norm_num [U64MOD]

theorem u64add_lt (a b : Nat) : u64add a b < U64MOD := Nat.mod_lt _ U64MOD_pos

theorem u64add_eq_of_lt (a b : Nat) (h : a + b < U64MOD) : u64add a b = a + b :=
  Nat.mod_eq_of_lt h

theorem le_u64add_of_lt (a b : Nat) (h : a + b < U64MOD) : a ≤ u64add a b := by
  rw [u64add_eq_of_lt a b h]; exact Nat.le_add_right _ _

/-- Helper: peeling one row off the monotonicity property. -/
theorem addressesMonotone_cons (x : LineEntry) (xs : List LineEntry) :
    addressesMonotone (x :: xs) ↔
      ((x.endSequence = false → ∀ f, xs.head? = some f → x.address ≤ f.address) ∧
        addressesMonotone xs) := by
  cases xs with
  | nil =>
    simp [addressesMonotone]
  | cons y ys =>
    simp only [addressesMonotone, List.zip_cons_cons, List.tail_cons, List.mem_cons]
    constructor
    · intro h
      refine ⟨?_, ?_⟩
      · intro hx f hf
        have hxy := h (x, y) (Or.inl rfl) hx
        have hfy : some y = some f := hf
        cases Option.some.inj hfy
        exact hxy
      · intro pr hpr
        exact h pr (Or.inr hpr)
    · rintro ⟨h1, h2⟩ pr hpr
      rcases hpr with hh | hh
      · subst hh
        intro hx
        exact h1 hx y rfl
      · exact h2 pr hh

/-- Main induction for the amended C9: if `set_address` only occurs at
sequence starts and no address addition wraps, the emitted rows are
monotone within every sequence, and when a row of the current sequence
has already been emitted at the current address, the next emitted row
does not move backwards. -/
theorem runLineProgram_mono (p : LineParams) :
    ∀ (prog : List LineInstr) (r : LineEntry) (b : Bool),
      seqStartOnlySetAddress b prog = true →
      noAddressWrap p r prog = true →
      r.address < U64MOD → r.endSequence = false →
      addressesMonotone (runLineProgram p r prog) ∧
      (∀ f, (runLineProgram p r prog).head? = some f → b = true →
        r.address ≤ f.address) := by
  intro prog
  induction prog with
  | nil =>
    intro r b _ _ _ _
    refine ⟨?_, ?_⟩
    · intro pr hpr; simp [runLineProgram] at hpr
    · intro f hf; simp [runLineProgram] at hf
  | cons i rest ih =>
    intro r b hsa hnw haddr hes
    cases i with
    | copy =>
      obtain ⟨_, hnw2⟩ := Bool.and_eq_true_iff.mp hnw
      obtain ⟨g1, g2⟩ := ih (resetRowFlags r) true hsa hnw2 haddr hes
      refine ⟨?_, ?_⟩
      · show addressesMonotone (r :: runLineProgram p (resetRowFlags r) rest)
        rw [addressesMonotone_cons]
        exact ⟨fun _ f hf => g2 f hf rfl, g1⟩
      · intro f hf _
        have hf2 : some r = some f := hf
        cases Option.some.inj hf2
        exact le_refl _
    | advancePc n =>
      obtain ⟨hw, hnw2⟩ := Bool.and_eq_true_iff.mp hnw
      have hwlt : r.address + n < U64MOD := of_decide_eq_true hw
      obtain ⟨g1, g2⟩ := ih { r with address := u64add r.address n } b hsa hnw2
        (u64add_lt _ _) hes
      refine ⟨g1, fun f hf hb => ?_⟩
      exact le_trans (le_u64add_of_lt _ _ hwlt) (g2 f hf hb)
    | advanceLine n =>
      obtain ⟨_, hnw2⟩ := Bool.and_eq_true_iff.mp hnw
      exact ih { r with line := u64addInt r.line n } b hsa hnw2 haddr hes
    | setFile n =>
      obtain ⟨_, hnw2⟩ := Bool.and_eq_true_iff.mp hnw
      exact ih { r with fileIndex := n } b hsa hnw2 haddr hes
    | setColumn n =>
      obtain ⟨_, hnw2⟩ := Bool.and_eq_true_iff.mp hnw
      exact ih { r with column := n } b hsa hnw2 haddr hes
    | negateStmt =>
      obtain ⟨_, hnw2⟩ := Bool.and_eq_true_iff.mp hnw
      exact ih { r with isStmt := !r.isStmt } b hsa hnw2 haddr hes
    | setBasicBlock =>
      obtain ⟨_, hnw2⟩ := Bool.and_eq_true_iff.mp hnw
      exact ih { r with basicBlockStart := true } b hsa hnw2 haddr hes
    | constAddPc =>
      obtain ⟨hw, hnw2⟩ := Bool.and_eq_true_iff.mp hnw
      have hwlt : r.address + (255 - p.opcodeBase) / p.lineRange < U64MOD :=
        of_decide_eq_true hw
      obtain ⟨g1, g2⟩ := ih
        { r with address := u64add r.address ((255 - p.opcodeBase) / p.lineRange) }
        b hsa hnw2 (u64add_lt _ _) hes
      refine ⟨g1, fun f hf hb => ?_⟩
      exact le_trans (le_u64add_of_lt _ _ hwlt) (g2 f hf hb)
    | fixedAdvancePc n =>
      obtain ⟨hw, hnw2⟩ := Bool.and_eq_true_iff.mp hnw
      have hwlt : r.address + n < U64MOD := of_decide_eq_true hw
      obtain ⟨g1, g2⟩ := ih { r with address := u64add r.address n } b hsa hnw2
        (u64add_lt _ _) hes
      refine ⟨g1, fun f hf hb => ?_⟩
      exact le_trans (le_u64add_of_lt _ _ hwlt) (g2 f hf hb)
    | setPrologueEnd =>
      obtain ⟨_, hnw2⟩ := Bool.and_eq_true_iff.mp hnw
      exact ih { r with prologueEnd := true } b hsa hnw2 haddr hes
    | setEpilogueBegin =>
      obtain ⟨_, hnw2⟩ := Bool.and_eq_true_iff.mp hnw
      exact ih { r with epilogueBegin := true } b hsa hnw2 haddr hes
    | setIsa =>
      obtain ⟨_, hnw2⟩ := Bool.and_eq_true_iff.mp hnw
      exact ih r b hsa hnw2 haddr hes
    | endSequence =>
      obtain ⟨_, hnw2⟩ := Bool.and_eq_true_iff.mp hnw
      obtain ⟨g1, g2⟩ := ih (initEntry p.defaultIsStmt) false hsa hnw2 U64MOD_pos rfl
      refine ⟨?_, ?_⟩
      · show addressesMonotone ({ r with endSequence := true } ::
          runLineProgram p (initEntry p.defaultIsStmt) rest)
        rw [addressesMonotone_cons]
        refine ⟨?_, g1⟩
        intro hx
        simp at hx
      · intro f hf _
        have hf2 : some { r with endSequence := true } = some f := hf
        cases Option.some.inj hf2
        exact le_refl _
    | setAddress a =>
      obtain ⟨hbm, hsa2⟩ := Bool.and_eq_true_iff.mp hsa
      have hbf : b = false := by
        cases b
        · rfl
        · simp at hbm
      obtain ⟨_, hnw2⟩ := Bool.and_eq_true_iff.mp hnw
      obtain ⟨g1, _⟩ := ih { r with address := a % U64MOD } b hsa2 hnw2
        (Nat.mod_lt _ U64MOD_pos) hes
      refine ⟨g1, fun f hf hb => ?_⟩
      rw [hbf] at hb
      simp at hb
    | defineFile =>
      obtain ⟨_, hnw2⟩ := Bool.and_eq_true_iff.mp hnw
      exact ih r b hsa hnw2 haddr hes
    | setDiscriminator n =>
      obtain ⟨_, hnw2⟩ := Bool.and_eq_true_iff.mp hnw
      exact ih { r with discriminator := n } b hsa hnw2 haddr hes
    | special op =>
      obtain ⟨hw, hnw2⟩ := Bool.and_eq_true_iff.mp hnw
      have hwlt : r.address + (op - p.opcodeBase) / p.lineRange < U64MOD :=
        of_decide_eq_true hw
      obtain ⟨g1, g2⟩ := ih (resetRowFlags { r with
          address := u64add r.address ((op - p.opcodeBase) / p.lineRange),
          line := u64addInt r.line (p.lineBase + ((op - p.opcodeBase) % p.lineRange : Nat)) })
        true hsa hnw2 (u64add_lt _ _) hes
      refine ⟨?_, ?_⟩
      · show addressesMonotone ({ r with
          address := u64add r.address ((op - p.opcodeBase) / p.lineRange),
          line := u64addInt r.line (p.lineBase + ((op - p.opcodeBase) % p.lineRange : Nat)) } ::
          runLineProgram p (resetRowFlags { r with
            address := u64add r.address ((op - p.opcodeBase) / p.lineRange),
            line := u64addInt r.line (p.lineBase + ((op - p.opcodeBase) % p.lineRange : Nat)) }) rest)
        rw [addressesMonotone_cons]
        exact ⟨fun _ f hf => g2 f hf rfl, g1⟩
      · intro f hf _
        have hf2 : some { r with
            address := u64add r.address ((op - p.opcodeBase) / p.lineRange),
            line := u64addInt r.line
              (p.lineBase + ((op - p.opcodeBase) % p.lineRange : Nat)) } = some f := hf
        cases Option.some.inj hf2
        exact le_u64add_of_lt _ _ hwlt

/-- C9 (amended): for every line table whose program uses
`DW_LNE_set_address` only at a sequence start (before any row of that
sequence is emitted) and whose address additions never wrap modulo
`2 ^ 64`, iterating from `begin()` to `end()` yields rows whose address
field is non-decreasing within each sequence, i.e. between consecutive
end-sequence rows. -/
theorem lineTableRows_monotone (p : LineParams) (prog : List LineInstr)
    (hsa : seqStartOnlySetAddress false prog = true)
    (hnw : noAddressWrap p (initEntry p.defaultIsStmt) prog = true) :
    addressesMonotone (lineTableRows p prog) :=
  (runLineProgram_mono p prog (initEntry p.defaultIsStmt) false hsa hnw
    U64MOD_pos rfl).1

/-- Witness for the amended C9 theorem on a concrete two-row sequence. -/
theorem lineTableRows_monotone_witness :
    addressesMonotone (lineTableRows witnessParams singleSeqProg) :=
  lineTableRows_monotone witnessParams singleSeqProg (by decide) (by decide)

theorem tokensAt_head (data : List DieTok) (p : Nat) (tok : DieTok)
    (l : List DieTok) (h : tokensAt data p (tok :: l)) : data[p]? = some tok := by
  have h0 := h 0 (Nat.succ_pos _)
  simpa using h0

theorem tokensAt_tail (data : List DieTok) (p : Nat) (tok : DieTok)
    (l : List DieTok) (h : tokensAt data p (tok :: l)) : tokensAt data (p + 1) l := by
  intro k hk
  have hh := h (k + 1) (by simpa using Nat.succ_lt_succ hk)
  have e : p + (k + 1) = p + 1 + k := by omega
  rw [e] at hh
  simpa using hh

theorem tokensAt_append_left (data : List DieTok) (p : Nat) (l1 l2 : List DieTok)
    (h : tokensAt data p (l1 ++ l2)) : tokensAt data p l1 := by
  intro k hk
  have hlen : k < (l1 ++ l2).length := by simp; omega
  have hh := h k hlen
  rw [hh, List.getElem?_append, if_pos hk]

theorem tokensAt_append_right (data : List DieTok) (p : Nat) (l1 l2 : List DieTok)
    (h : tokensAt data p (l1 ++ l2)) : tokensAt data (p + l1.length) l2 := by
  intro k hk
  have hlen : l1.length + k < (l1 ++ l2).length := by simp; omega
  have hh := h (l1.length + k) hlen
  have e : p + (l1.length + k) = p + l1.length + k := by omega
  rw [e] at hh
  rw [hh, List.getElem?_append, if_neg (by omega)]
  simp

mutual

theorem serTree_length (p : Nat) (t : DieTree) :
    (serTree p t).length = sizeTree t := by
  cases t with
  | node sib ch =>
    cases ch with
    | none => simp [serTree, sizeTree]
    | some f =>
      have hf := serForest_length (p + 1) f
      simp only [serTree, List.length_cons, List.length_append,
        List.length_singleton, List.length_nil, hf, sizeTree]
      omega

theorem serForest_length (p : Nat) (f : DieForest) :
    (serForest p f).length = sizeForest f := by
  cases f with
  | nil => simp [serForest, sizeForest]
  | cons t rest =>
    have h1 := serTree_length p t
    have h2 := serForest_length (p + sizeTree t) rest
    simp only [serForest, List.length_append, h1, h2, sizeForest]

end

/-- Helper: the head of a serialized subtree is always a DIE entry. -/
theorem serTree_head (q : Nat) (t : DieTree) :
    ∃ hc s l, serTree q t = .entry hc s :: l := by
  cases t with
  | node sib ch =>
    cases ch with
    | none =>
      refine ⟨false, (if sib then some (q + 1) else none), [], ?_⟩
      rw [serTree]
    | some f =>
      refine ⟨true, (if sib then some (q + 2 + sizeForest f) else none),
        serForest (q + 1) f ++ [.term], ?_⟩
      rw [serTree]

/-- Helper: at the start of a serialized forest followed by a
terminator, `parse_die` always succeeds. -/
theorem parseAt_isSome_forest (data : List DieTok) (q : Nat) (f : DieForest)
    (hlay : tokensAt data q (serForest q f))
    (hterm : data[q + sizeForest f]? = some .term) :
    ∃ d, parseAt data q = some d := by
  cases f with
  | nil =>
    have hq : data[q]? = some .term := by simpa [sizeForest] using hterm
    exact ⟨⟨q, q + 1, true, false, none⟩, by rw [parseAt, hq]⟩
  | cons t rest =>
    obtain ⟨hc, s, l, he⟩ := serTree_head q t
    have hsplit : serForest q (DieForest.cons t rest) =
        serTree q t ++ serForest (q + sizeTree t) rest := by rw [serForest]
    rw [hsplit] at hlay
    have hlt : tokensAt data q (serTree q t) := tokensAt_append_left _ _ _ _ hlay
    rw [he] at hlt
    have hget : data[q]? = some (.entry hc s) := tokensAt_head _ _ _ _ hlt
    exact ⟨⟨q, q + 1, false, hc, s⟩, by rw [parseAt, hget]⟩

theorem fuelTree_pos (t : DieTree) : 1 ≤ fuelTree t := by
  cases t with
  | node sib ch =>
    cases ch with
    | none => rw [fuelTree]
    | some f => rw [fuelTree]; omega

theorem fuelForest_pos (f : DieForest) : 1 ≤ fuelForest f := by
  cases f with
  | nil => rw [fuelForest]
  | cons t rest => rw [fuelForest]; omega

/-- Main induction for C8, on the fuel: over a well-formed serialized
subtree, `operator++` lands exactly at the slot following the subtree,
and the child walk of a with-children DIE reaches the subtree's
terminator. -/
theorem advance_walk_ser : ∀ fuel : Nat,
    (∀ (t : DieTree) (p : Nat) (data : List DieTok) (d : ParsedDie),
      tokensAt data p (serTree p t) → fuelTree t ≤ fuel →
      parseAt data p = some d →
      advanceDie fuel data d = parseAt data (p + sizeTree t)) ∧
    (∀ (f : DieForest) (q : Nat) (data : List DieTok) (d : ParsedDie),
      tokensAt data q (serForest q f) →
      data[q + sizeForest f]? = some .term → fuelForest f ≤ fuel →
      parseAt data q = some d →
      walkToTerm fuel data d =
        some ⟨q + sizeForest f, q + sizeForest f + 1, true, false, none⟩) := by
  intro fuel
  induction fuel with
  | zero =>
    constructor
    · intro t _ _ _ _ hfuel _
      exact absurd (le_trans (fuelTree_pos t) hfuel) (by omega)
    · intro f _ _ _ _ _ hfuel _
      exact absurd (le_trans (fuelForest_pos f) hfuel) (by omega)
  | succ m ih =>
    constructor
    · intro t p data d hlay hfuel hd
      cases t with
      | node sib ch =>
        cases ch with
        | none =>
          have hget : data[p]? =
              some (.entry false (if sib then some (p + 1) else none)) :=
            tokensAt_head _ _ _ _ hlay
          have hd2 : d = ⟨p, p + 1, false, false,
              if sib then some (p + 1) else none⟩ := by
            rw [parseAt, hget] at hd
            exact (Option.some.inj hd).symm
          subst hd2
          rw [advanceDie]
          simp [sizeTree]
        | some f =>
          have hform : serTree p (DieTree.node sib (some f)) =
              .entry true (if sib then some (p + 2 + sizeForest f) else none) ::
                (serForest (p + 1) f ++ [.term]) := by rw [serTree]
          rw [hform] at hlay
          have hget : data[p]? = some (.entry true
              (if sib then some (p + 2 + sizeForest f) else none)) :=
            tokensAt_head _ _ _ _ hlay
          have htail : tokensAt data (p + 1) (serForest (p + 1) f ++ [.term]) :=
            tokensAt_tail _ _ _ _ hlay
          have hforest : tokensAt data (p + 1) (serForest (p + 1) f) :=
            tokensAt_append_left _ _ _ _ htail
          have hterm : data[p + 1 + sizeForest f]? = some .term := by
            have h2 := tokensAt_append_right _ _ _ _ htail
            rw [serForest_length] at h2
            have h3 := h2 0 (by simp)
            simpa using h3
          have hd2 : d = ⟨p, p + 1, false, true,
              if sib then some (p + 2 + sizeForest f) else none⟩ := by
            rw [parseAt, hget] at hd
            exact (Option.some.inj hd).symm
          have hm : fuelForest f ≤ m := by
            have he : fuelTree (DieTree.node sib (some f)) = 1 + fuelForest f := by
              rw [fuelTree]
            omega
          subst hd2
          rw [advanceDie]
          cases sib with
          | true =>
            have e : p + sizeTree (DieTree.node true (some f)) =
                p + 2 + sizeForest f := by
              rw [sizeTree]; omega
            rw [e]
            simp
          | false =>
            obtain ⟨sub, hsub⟩ := parseAt_isSome_forest data (p + 1) f hforest hterm
            have hwalk := ih.2 f (p + 1) data sub hforest hterm hm hsub
            have e : p + sizeTree (DieTree.node false (some f)) =
                p + 1 + sizeForest f + 1 := by
              rw [sizeTree]; omega
            rw [e]
            simp [hsub, hwalk]
    · intro f q data d hlay hterm hfuel hd
      cases f with
      | nil =>
        have hq : data[q]? = some .term := by simpa [sizeForest] using hterm
        have hd2 : d = ⟨q, q + 1, true, false, none⟩ := by
          rw [parseAt, hq] at hd
          exact (Option.some.inj hd).symm
        subst hd2
        rw [walkToTerm]
        simp [sizeForest]
      | cons t rest =>
        have hsplit : serForest q (DieForest.cons t rest) =
            serTree q t ++ serForest (q + sizeTree t) rest := by rw [serForest]
        rw [hsplit] at hlay
        have hlt : tokensAt data q (serTree q t) :=
          tokensAt_append_left _ _ _ _ hlay
        have hrt : tokensAt data (q + sizeTree t)
            (serForest (q + sizeTree t) rest) := by
          have hh := tokensAt_append_right _ _ _ _ hlay
          rwa [serTree_length] at hh
        have hterm2 : data[q + sizeTree t + sizeForest rest]? = some .term := by
          have e : q + sizeTree t + sizeForest rest =
              q + sizeForest (DieForest.cons t rest) := by
            rw [sizeForest]; omega
          rw [e]; exact hterm
        obtain ⟨hc, s, l, he⟩ := serTree_head q t
        have hget : data[q]? = some (.entry hc s) := by
          have hlt2 := hlt
          rw [he] at hlt2
          exact tokensAt_head _ _ _ _ hlt2
        have hd2 : d = ⟨q, q + 1, false, hc, s⟩ := by
          rw [parseAt, hget] at hd
          exact (Option.some.inj hd).symm
        have hmt : fuelTree t ≤ m := by
          have he2 : fuelForest (DieForest.cons t rest) =
              1 + fuelTree t + fuelForest rest := by rw [fuelForest]
          have := fuelForest_pos rest
          omega
        have hmr : fuelForest rest ≤ m := by
          have he2 : fuelForest (DieForest.cons t rest) =
              1 + fuelTree t + fuelForest rest := by rw [fuelForest]
          have := fuelTree_pos t
          omega
        have hadv := ih.1 t q data d hlt hmt hd
        obtain ⟨d2, hd2p⟩ :=
          parseAt_isSome_forest data (q + sizeTree t) rest hrt hterm2
        have hwalk := ih.2 rest (q + sizeTree t) data d2 hrt hterm2 hmr hd2p
        subst hd2
        rw [walkToTerm]
        have e : q + sizeForest (DieForest.cons t rest) =
            q + sizeTree t + sizeForest rest := by
          rw [sizeForest]; omega
        rw [e]
        simp [hadv, hd2p, hwalk]

/-- C8: over a well-formed serialized DIE subtree, the child iterator's
`operator++` advances from the subtree's head DIE exactly to the slot
following the subtree — whether it takes the no-children path, the
`DW_AT_sibling` jump, or the depth-first walk to the terminator — and
for a DIE with children, parsing its first child, walking every child to
the terminator and parsing at that terminator's `next` yields the same
DIE as the direct sibling advance. -/
theorem dieSiblingTraversal (t : DieTree) (p : Nat) (data : List DieTok)
    (fuel : Nat) (hlay : tokensAt data p (serTree p t))
    (hfuel : fuelTree t ≤ fuel) (d : ParsedDie)
    (hd : parseAt data p = some d) :
    advanceDie fuel data d = parseAt data (p + sizeTree t) ∧
    (∀ sib f, t = DieTree.node sib (some f) →
      (match parseAt data (p + 1) with
       | some sub =>
         match walkToTerm fuel data sub with
         | some tt => parseAt data tt.next
         | none => none
       | none => none) = parseAt data (p + sizeTree t)) := by
  refine ⟨(advance_walk_ser fuel).1 t p data d hlay hfuel hd, ?_⟩
  rintro sib f rfl
  have hform : serTree p (DieTree.node sib (some f)) =
      .entry true (if sib then some (p + 2 + sizeForest f) else none) ::
        (serForest (p + 1) f ++ [.term]) := by rw [serTree]
  rw [hform] at hlay
  have htail : tokensAt data (p + 1) (serForest (p + 1) f ++ [.term]) :=
    tokensAt_tail _ _ _ _ hlay
  have hforest : tokensAt data (p + 1) (serForest (p + 1) f) :=
    tokensAt_append_left _ _ _ _ htail
  have hterm : data[p + 1 + sizeForest f]? = some .term := by
    have h2 := tokensAt_append_right _ _ _ _ htail
    rw [serForest_length] at h2
    have h3 := h2 0 (by simp)
    simpa using h3
  have hm : fuelForest f ≤ fuel := by
    have he : fuelTree (DieTree.node sib (some f)) = 1 + fuelForest f := by
      rw [fuelTree]
    omega
  obtain ⟨sub, hsub⟩ := parseAt_isSome_forest data (p + 1) f hforest hterm
  have hwalk := (advance_walk_ser fuel).2 f (p + 1) data sub hforest hterm hm hsub
  have e : p + sizeTree (DieTree.node sib (some f)) = p + 1 + sizeForest f + 1 := by
    rw [sizeTree]; omega
  rw [hsub]
  show (match walkToTerm fuel data sub with
        | some tt => parseAt data tt.next
        | none => none) = parseAt data (p + sizeTree (DieTree.node sib (some f)))
  rw [hwalk]
  show parseAt data (p + 1 + sizeForest f + 1) =
    parseAt data (p + sizeTree (DieTree.node sib (some f)))
  rw [e]

/-- Witness for the C8 theorem: advancing from the parent at slot 0
reaches its sibling at slot 4, and the child walk reaches the same DIE. -/
theorem dieSiblingTraversal_witness :
    advanceDie 6 c8data ⟨0, 1, false, true, none⟩ =
      some ⟨4, 5, false, false, none⟩ ∧
    (match parseAt c8data 1 with
     | some sub =>
       match walkToTerm 6 c8data sub with
       | some tt => parseAt c8data tt.next
       | none => none
     | none => none) = some ⟨4, 5, false, false, none⟩ := by
  have h := dieSiblingTraversal c8tree 0 c8data 6 (by decide) (by decide)
    ⟨0, 1, false, true, none⟩ (by decide)
  constructor
  · rw [h.1]; decide
  · have h2 := h.2 false
      (DieForest.cons (DieTree.node false none)
        (DieForest.cons (DieTree.node false none) DieForest.nil)) rfl
    rw [h2]; decide

end Sdb
